import Mathlib

/-!
Verification development for the Adelos stealth-address SDK.

The TypeScript sources are shallowly embedded:
* byte buffers (`Uint8Array`) become `List ℕ` with entries `< 256`;
* JavaScript strings become `List Char`;
* `bigint` arithmetic becomes `ℕ` (or `ℤ` for signed balances) with the
  modulus written explicitly;
* functions that can throw become `Option`-valued;
* the Ed25519 curve arithmetic supplied by the external `@noble/ed25519`
  library is abstracted, exactly as the specification prescribes for the
  Scalar/Point Engine, into a `CurveEngine` record: an additive commutative
  group of points, the base point `G`, point compression `encPt`
  (`toRawBytes`) and decompression `decPt` (`fromHex` after `bytesToHex`).
  Theorems assume only the algebraic facts the library guarantees: the base
  point is killed by the group order, compression is injective (it has the
  decoder as a left inverse) and produces 32 bytes;
* the external SHA-256 / SHA-512 digests from `@noble/hashes` are function
  parameters; the claims hold for every choice of digest function.
-/

namespace Adelos

/-- Order of the prime-order subgroup of Ed25519 (`ed.CURVE.n`). -/
def CURVE_n : ℕ := 2 ^ 252 + 27742317777372353535851937790883648493

/-- Numeric value of a hexadecimal digit character; `0` on other characters
(only ever evaluated on hex digits in the embedded code paths). -/
def hexCharVal (c : Char) : ℕ :=
  if 48 ≤ c.toNat ∧ c.toNat ≤ 57 then c.toNat - 48
  else if 97 ≤ c.toNat ∧ c.toNat ≤ 102 then c.toNat - 87
  else if 65 ≤ c.toNat ∧ c.toNat ≤ 70 then c.toNat - 55
  else 0

/-- Is the character one of `0-9a-fA-F`? -/
def isHexDigitJS (c : Char) : Bool :=
  (48 ≤ c.toNat && c.toNat ≤ 57) ||
  (97 ≤ c.toNat && c.toNat ≤ 102) ||
  (65 ≤ c.toNat && c.toNat ≤ 70)

/-- JavaScript whitespace recognised by `parseInt` (space, tab, LF, VT, FF, CR). -/
def isJsWs (c : Char) : Bool :=
  c.toNat == 32 || c.toNat == 9 || c.toNat == 10 ||
  c.toNat == 11 || c.toNat == 12 || c.toNat == 13

/-- Lowercase hex digit character for a value `< 16`, as produced by
JavaScript `Number.prototype.toString(16)` / `BigInt.prototype.toString(16)`. -/
def hexDigitChar (d : ℕ) : Char :=
  if d < 10 then Char.ofNat (48 + d) else Char.ofNat (87 + d)

/-- Little-endian base-16 digits of `n`; `fuel` bounds the recursion and is
always called with `fuel = n`, which suffices since `n < 16 ^ n`. -/
def hexDigitsAux : ℕ → ℕ → List ℕ
  | 0, _ => []
  | fuel + 1, n => if n = 0 then [] else n % 16 :: hexDigitsAux fuel (n / 16)

/-- Model of JavaScript `n.toString(16)` for a non-negative bigint: most
significant digit first, lowercase, and `"0"` for zero. -/
def jsToHex (n : ℕ) : List Char :=
  if n = 0 then ['0'] else ((hexDigitsAux n n).map hexDigitChar).reverse

/-- Model of JavaScript `String.prototype.padStart(len, c)`. -/
def padStart (len : ℕ) (c : Char) (s : List Char) : List Char :=
  List.replicate (len - s.length) c ++ s

/-- Value of a big-endian hex digit string, as computed by
`BigInt("0x" + hex)` on a valid hex string. -/
def ofHexBE (cs : List Char) : ℕ :=
  cs.foldl (fun a c => 16 * a + hexCharVal c) 0

/-- Embeds `bytesToHex` from `src/utils.ts`: every byte is rendered as
`b.toString(16).padStart(2, "0")` and the pieces are concatenated. -/
def bytesToHex (bs : List ℕ) : List Char :=
  (bs.map (fun b => padStart 2 '0' (jsToHex b))).flatten

/-- Model of JavaScript `parseInt(s, 16)`: trim whitespace, optional sign,
optional `0x`/`0X`, then the longest run of hex digits; `none` models `NaN`. -/
def jsParseIntHex (s : List Char) : Option ℤ :=
  let s1 := s.dropWhile isJsWs
  let signNeg : Bool := match s1 with | c :: _ => c == '-' | [] => false
  let s2 := match s1 with
    | c :: t => if c == '-' || c == '+' then t else s1
    | [] => s1
  let s3 := if s2.take 2 = ['0', 'x'] ∨ s2.take 2 = ['0', 'X'] then s2.drop 2 else s2
  let ds := s3.takeWhile isHexDigitJS
  if ds.isEmpty then none
  else some ((if signNeg then -1 else 1) * (ofHexBE ds : ℤ))

/-- Consecutive pairs of characters, i.e. the slices
`cleanHex.slice(i * 2, i * 2 + 2)` taken by the `hexToBytes` loop. -/
def chunk2 : List Char → List (List Char)
  | a :: b :: t => [a, b] :: chunk2 t
  | _ => []

/-- One loop iteration of `hexToBytes`: `bytes[i] = parseInt(slice, 16)`.
Storing into a `Uint8Array` coerces `NaN` to `0` and other integers to their
value modulo 256. -/
def parseByte (s : List Char) : ℕ :=
  match jsParseIntHex s with
  | none => 0
  | some v => (v % 256).toNat

/-- Embeds `hexToBytes` from `src/utils.ts`.  A leading lowercase `"0x"` is
stripped; `new Uint8Array(cleanHex.length / 2)` throws a `RangeError` for an
odd length (modelled by `none`); otherwise each 2-character slice is parsed
with `parseInt(_, 16)`. -/
def hexToBytesJS (hex : List Char) : Option (List ℕ) :=
  let cleanHex := if hex.take 2 = ['0', 'x'] then hex.drop 2 else hex
  if cleanHex.length % 2 = 0 then some ((chunk2 cleanHex).map parseByte)
  else none

/-- Embeds `toScalar` from `src/crypto.ts`: a 64-byte buffer is truncated to
its first 32 bytes, the bytes are reversed, rendered as hex, read back as a
big-endian `BigInt` and reduced modulo the group order. -/
def toScalar (bytes : List ℕ) : ℕ :=
  let cleanBytes := if bytes.length = 64 then bytes.take 32 else bytes
  let reversed := cleanBytes.reverse
  ofHexBE (bytesToHex reversed) % CURVE_n

/-- Embeds the scalar serialisation used by `recoverStealthSecretKey` and
`signWithScalar`: `scalar.toString(16).padStart(64, "0")` rendered to bytes
with `hexToBytes` and then reversed into little-endian order.  The `getD []`
covers the impossible `RangeError` branch (the padded string always has the
even length 64). -/
def scalarToBytesLE (n : ℕ) : List ℕ :=
  ((hexToBytesJS (padStart 64 '0' (jsToHex n))).getD []).reverse

/-- The protocol memo tag `ADLSv1:` (`ADELOS_CONFIG.MEMO_PREFIX`). -/
def MEMO_TAG : List Char := ['A', 'D', 'L', 'S', 'v', '1', ':']

/-- The domain separation string `adelos:stealth:v1`
(`ADELOS_CONFIG.STEALTH_DOMAIN`). -/
def STEALTH_DOMAIN : List Char :=
  ['a', 'd', 'e', 'l', 'o', 's', ':', 's', 't', 'e', 'a', 'l', 't', 'h', ':', 'v', '1']

/-- UTF-8 bytes of the domain tag (`encoder.encode(STEALTH_DOMAIN)`; the tag
is pure ASCII, so encoding is code-point extraction). -/
def stealthDomainBytes : List ℕ := STEALTH_DOMAIN.map Char.toNat

/-- Abstraction of the Ed25519 arithmetic supplied by `@noble/ed25519`: the
point type carries an additive commutative group structure, `G` is
`ExtendedPoint.BASE`, `encPt` is `toRawBytes` (point compression), and
`decPt` is `ExtendedPoint.fromHex ∘ bytesToHex` (decompression of a 32-byte
compressed point). -/
structure CurveEngine (Pt : Type) where
  G : Pt
  encPt : Pt → List ℕ
  decPt : List ℕ → Pt

variable {Pt : Type} [AddCommGroup Pt]

/-- Embeds `derivePublicKey` from `src/crypto.ts`:
`ExtendedPoint.BASE.multiply(toScalar(secretKey)).toRawBytes()`. -/
def derivePublicKey (E : CurveEngine Pt) (secretKey : List ℕ) : List ℕ :=
  E.encPt (toScalar secretKey • E.G)

/-- Embeds `computeSharedSecret` from `src/crypto.ts` (sender side):
`sha256(metaPoint.multiply(toScalar(ephemeralSk)).toRawBytes())`. -/
def computeSharedSecret (E : CurveEngine Pt) (H256 : List ℕ → List ℕ)
    (ephemeralSk recipientMetaPk : List ℕ) : List ℕ :=
  H256 (E.encPt (toScalar ephemeralSk • E.decPt recipientMetaPk))

/-- Embeds `computeSharedSecretAsRecipient` from `src/crypto.ts`:
`sha256(ephemeralPoint.multiply(toScalar(metaSk)).toRawBytes())`. -/
def computeSharedSecretAsRecipient (E : CurveEngine Pt) (H256 : List ℕ → List ℕ)
    (metaSk ephemeralPk : List ℕ) : List ℕ :=
  H256 (E.encPt (toScalar metaSk • E.decPt ephemeralPk))

/-- Embeds `deriveStealthPubkey` from `src/crypto.ts`: the domain scalar is
`toScalar(sha256(sharedSecret ‖ domain))` and the stealth point is
`metaPoint.add(BASE.multiply(scalar))`. -/
def deriveStealthPubkey (E : CurveEngine Pt) (H256 : List ℕ → List ℕ)
    (metaPk sharedSecret : List ℕ) : List ℕ :=
  let scalarBytes := H256 (sharedSecret ++ stealthDomainBytes)
  let scalar := toScalar scalarBytes
  E.encPt (E.decPt metaPk + scalar • E.G)

/-- Embeds `recoverStealthSecretKey` from `src/crypto.ts`: the stealth scalar
`(metaScalar + domainScalar) mod L` is rendered as 64 big-endian hex digits,
decoded to bytes and reversed into little-endian order. -/
def recoverStealthSecretKey (H256 : List ℕ → List ℕ)
    (metaSk sharedSecret : List ℕ) : List ℕ :=
  let scalarBytes := H256 (sharedSecret ++ stealthDomainBytes)
  let scalar := toScalar scalarBytes
  let metaScalar := toScalar metaSk
  scalarToBytesLE ((metaScalar + scalar) % CURVE_n)

/-- Embeds `generateStealthMemo` from `src/crypto.ts`. -/
def generateStealthMemo (ephemeralPubkey : List ℕ) : List Char :=
  MEMO_TAG ++ bytesToHex ephemeralPubkey

/-- Embeds `parseStealthMemo` from `src/crypto.ts`: reject unless the memo
starts with the protocol tag and the remainder has exactly 64 characters,
then decode the remainder with `hexToBytes` (whose `RangeError` is caught
and turned into `null`). -/
def parseStealthMemo (memo : List Char) : Option (List ℕ) :=
  if memo.take MEMO_TAG.length = MEMO_TAG then
    if (memo.drop MEMO_TAG.length).length = 64 then
      hexToBytesJS (memo.drop MEMO_TAG.length)
    else none
  else none

/-- Embeds `signWithScalar` from `src/crypto.ts`.  The random nonce bytes
drawn inside the function (`ed.utils.randomPrivateKey()`) are passed in as
the argument `rBytes`; `H512` is the SHA-512 digest.  The signature is the
32-byte compressed `R` followed by the 32-byte little-endian `S`
(`sig.set(RBytes); sig.set(SBytes, 32)` on a 64-byte array, which is
concatenation because `toRawBytes` yields 32 bytes). -/
def signWithScalar (E : CurveEngine Pt) (H512 : List ℕ → List ℕ)
    (message scalarBytes rBytes : List ℕ) : List ℕ :=
  let scalar := toScalar scalarBytes
  let pubBytes := E.encPt (scalar • E.G)
  let rScalar := toScalar rBytes
  let RBytes := E.encPt (rScalar • E.G)
  let content := RBytes ++ pubBytes ++ message
  let hram := H512 content
  let k := ofHexBE (bytesToHex hram.reverse) % CURVE_n
  let S := (rScalar + k * scalar) % CURVE_n
  let SBytes := scalarToBytesLE S
  RBytes ++ SBytes

/-- Spec-side hash-to-scalar: the digest bytes read as a little-endian
integer, reduced modulo the group order.  Used to state claims; the
theorems prove that the reverse-and-rehex computation of the source equals it. -/
def hashToScalarLE (bs : List ℕ) : ℕ :=
  Nat.ofDigits 256 bs % CURVE_n

/-! ### Scanner data model (`src/indexer.ts`, `src/types.ts`) -/

/-- One parsed instruction of a fetched transaction: whether its program id
equals the memo program id, and its `parsed` payload (a string for memo
instructions; `none` models `undefined`). -/
structure ParsedInstr where
  isMemoProgram : Bool
  parsed : Option (List Char)
deriving DecidableEq

/-- Execution metadata of a fetched transaction (`tx.meta`). -/
structure TxMeta where
  preBalances : List ℕ
  postBalances : List ℕ
deriving DecidableEq

/-- A fetched `ParsedTransactionWithMeta`, restricted to the fields the
scanner reads. Account keys are the 32-byte `pubkey.toBytes()` buffers. -/
structure ParsedTx where
  instructions : List ParsedInstr
  accountKeys : List (List ℕ)
  meta : Option TxMeta
  blockTime : Option ℤ
deriving DecidableEq

/-- Result of a successful trial decryption inside `attemptDecryption`. -/
structure Detection where
  stealthAddress : List ℕ
  amount : ℤ
  ephemeralPk : List ℕ
deriving DecidableEq

/-- A stealth transfer found by the scanner (`StealthTransaction` in
`src/types.ts`). -/
structure StealthTransaction where
  signature : List Char
  blockTime : Option ℤ
  stealthAddress : List ℕ
  amount : ℤ
  ephemeralPk : List ℕ
deriving DecidableEq

/-- `WithdrawableTransaction` from `src/types.ts`: a `StealthTransaction`
plus the single extra field `stealthSecretKey`. -/
structure WithdrawableTransaction extends StealthTransaction where
  stealthSecretKey : List ℕ
deriving DecidableEq

/-- Embeds `extractMemo`: the first instruction whose program id is the memo
program, with `(ix as any)?.parsed || null` collapsing a missing instruction,
a missing `parsed` field and an empty string to `null`. -/
def extractMemo (tx : ParsedTx) : Option (List Char) :=
  match tx.instructions.find? (fun i => i.isMemoProgram) with
  | none => none
  | some ix =>
    match ix.parsed with
    | none => none
    | some s => if s.isEmpty then none else some s

/-- The scanner expression `tx.meta?.preBalances || []`. -/
def txPreBalances (tx : ParsedTx) : List ℕ :=
  match tx.meta with
  | some m => m.preBalances
  | none => []

/-- The scanner expression `tx.meta?.postBalances || []`. -/
def txPostBalances (tx : ParsedTx) : List ℕ :=
  match tx.meta with
  | some m => m.postBalances
  | none => []

/-- Embeds `attemptDecryption` from `src/indexer.ts`: parse the memo, derive
the expected stealth address, look it up among the account keys by hex
comparison, and on a match report the balance delta clamped at zero. -/
def attemptDecryption (E : CurveEngine Pt) (H256 : List ℕ → List ℕ)
    (tx : ParsedTx) (metaSk metaPk : List ℕ) : Option Detection :=
  match parseStealthMemo ((extractMemo tx).getD []) with
  | none => none
  | some ephemeralPk =>
    match tx.accountKeys.findIdx? (fun a => bytesToHex a ==
        bytesToHex (deriveStealthPubkey E H256 metaPk
          (computeSharedSecretAsRecipient E H256 metaSk ephemeralPk))) with
    | none => none
    | some idx =>
      let change : ℤ :=
        ((txPostBalances tx).getD idx 0 : ℤ) - ((txPreBalances tx).getD idx 0 : ℤ)
      some { stealthAddress := tx.accountKeys.getD idx []
             amount := if 0 < change then change else 0
             ephemeralPk := ephemeralPk }

/-- The `StealthTransaction` record pushed onto the result list on a match
(`blockTime: tx.blockTime ?? null`). -/
def buildStealthTx (sig : List Char) (tx : ParsedTx) (d : Detection) :
    StealthTransaction :=
  { signature := sig
    blockTime := tx.blockTime
    stealthAddress := d.stealthAddress
    amount := d.amount
    ephemeralPk := d.ephemeralPk }

/-- The per-signature loop of `scanForStealthTransfers`.  `fetchTx` is the
collaborator `fetchTransaction(signature) -> tx | none` of spec §6; a `none`
(transaction not found / fetch failed) is logged and skipped, a memo that is
absent or lacks the protocol tag is skipped, and a failed trial decryption
is skipped.  Matches accumulate in input order. -/
def scanList (E : CurveEngine Pt) (H256 : List ℕ → List ℕ)
    (fetchTx : List Char → Option ParsedTx) (metaSk metaPk : List ℕ) :
    List (List Char) → List StealthTransaction
  | [] => []
  | sig :: rest =>
    match fetchTx sig with
    | none => scanList E H256 fetchTx metaSk metaPk rest
    | some tx =>
      match extractMemo tx with
      | none => scanList E H256 fetchTx metaSk metaPk rest
      | some memo =>
        if memo.take MEMO_TAG.length = MEMO_TAG then
          match attemptDecryption E H256 tx metaSk metaPk with
          | some d => buildStealthTx sig tx d :: scanList E H256 fetchTx metaSk metaPk rest
          | none => scanList E H256 fetchTx metaSk metaPk rest
        else scanList E H256 fetchTx metaSk metaPk rest

/-- Embeds `scanForStealthTransfers` from `src/indexer.ts`.  The initial
`getSignaturesForAddress` collaborator call is passed in as `sigsResult`: a
thrown fetch error (`Except.error`) propagates to the caller and aborts the
scan, a successful fetch yields the signature list which is processed by
`scanList`. -/
def scanForStealthTransfers {ε : Type} (E : CurveEngine Pt) (H256 : List ℕ → List ℕ)
    (sigsResult : Except ε (List (List Char)))
    (fetchTx : List Char → Option ParsedTx) (metaSk metaPk : List ℕ) :
    Except ε (List StealthTransaction) :=
  match sigsResult with
  | .error e => .error e
  | .ok sigs => .ok (scanList E H256 fetchTx metaSk metaPk sigs)

/-- Embeds `prepareWithdraw` from `src/indexer.ts`: recompute the shared
secret from the stored ephemeral key, recover the stealth secret key, and
return `{ ...stealthTx, stealthSecretKey }`. -/
def prepareWithdraw (E : CurveEngine Pt) (H256 : List ℕ → List ℕ)
    (stealthTx : StealthTransaction) (metaSk metaPk : List ℕ) :
    WithdrawableTransaction :=
  let sharedSecret := computeSharedSecretAsRecipient E H256 metaSk stealthTx.ephemeralPk
  let stealthSecretKey := recoverStealthSecretKey H256 metaSk sharedSecret
  { toStealthTransaction := stealthTx
    stealthSecretKey := stealthSecretKey }

/-- Degenerate point engine on the one-point group, used to instantiate the
abstract engine in concrete witnesses. -/
def unitEngine : CurveEngine PUnit :=
  { G := PUnit.unit
    encPt := fun _ => List.replicate 32 0
    decPt := fun _ => PUnit.unit }

/-- Concrete transaction used to instantiate scanner theorems: a memo
instruction carrying an all-zero ephemeral key, one account key, and a
balance that rises from 2 to 5 lamports. -/
def witnessTx : ParsedTx :=
  { instructions := [{ isMemoProgram := true
                       parsed := some (MEMO_TAG ++ List.replicate 64 '0') }]
    accountKeys := [List.replicate 32 0]
    meta := some { preBalances := [2], postBalances := [5] }
    blockTime := some 0 }

/-- The detection produced by `attemptDecryption` on `witnessTx` under the
one-point engine. -/
def witnessDetection : Detection :=
  { stealthAddress := List.replicate 32 0
    amount := 3
    ephemeralPk := List.replicate 32 0 }

/-! ### Arithmetic facts about the hex pipeline -/

theorem CURVE_n_pos : 0 < CURVE_n := by norm_num [CURVE_n]

theorem CURVE_n_lt_pow : CURVE_n < 16 ^ 64 := by norm_num [CURVE_n]

theorem hexCharVal_lt16 (c : Char) : hexCharVal c < 16 := by
  unfold hexCharVal
  split <;> try omega
  split <;> try omega
  split <;> omega

theorem hexDigitChar_val : ∀ d, d < 16 → hexCharVal (hexDigitChar d) = d := by decide

theorem hexDigitChar_isHex : ∀ d, d < 16 → isHexDigitJS (hexDigitChar d) = true := by decide

theorem isHex_toNat {c : Char} (h : isHexDigitJS c = true) :
    48 ≤ c.toNat ∧ c.toNat ≤ 102 := by
  simp only [isHexDigitJS, Bool.or_eq_true, Bool.and_eq_true, decide_eq_true_eq] at h
  omega

theorem isHex_not_ws {c : Char} (h : isHexDigitJS c = true) : isJsWs c = false := by
  have := isHex_toNat h
  simp only [isJsWs, Bool.or_eq_false_iff, beq_eq_false_iff_ne, ne_eq]
  omega

theorem isHex_ne_minus {c : Char} (h : isHexDigitJS c = true) : (c == '-') = false := by
  simp only [beq_eq_false_iff_ne, ne_eq]
  rintro rfl
  exact absurd h (by decide)

theorem isHex_ne_plus {c : Char} (h : isHexDigitJS c = true) : (c == '+') = false := by
  simp only [beq_eq_false_iff_ne, ne_eq]
  rintro rfl
  exact absurd h (by decide)

theorem isHex_ne_x {c : Char} (h : isHexDigitJS c = true) : c ≠ 'x' := by
  rintro rfl
  exact absurd h (by decide)

theorem isHex_ne_X {c : Char} (h : isHexDigitJS c = true) : c ≠ 'X' := by
  rintro rfl
  exact absurd h (by decide)

theorem hexFoldl_eq (l : List Char) :
    ∀ a : ℕ, l.foldl (fun a c => 16 * a + hexCharVal c) a = a * 16 ^ l.length + ofHexBE l := by
  induction l with
  | nil => intro a; simp [ofHexBE]
  | cons c t ih =>
    intro a
    simp only [List.foldl_cons, List.length_cons, ofHexBE]
    rw [ih (16 * a + hexCharVal c), ih (16 * 0 + hexCharVal c)]
    ring

theorem ofHexBE_cons (c : Char) (t : List Char) :
    ofHexBE (c :: t) = hexCharVal c * 16 ^ t.length + ofHexBE t := by
  show List.foldl _ _ (c :: t) = _
  rw [List.foldl_cons, hexFoldl_eq]
  ring_nf

theorem ofHexBE_append (xs ys : List Char) :
    ofHexBE (xs ++ ys) = ofHexBE xs * 16 ^ ys.length + ofHexBE ys := by
  show List.foldl _ _ (xs ++ ys) = _
  rw [List.foldl_append, hexFoldl_eq]
  rfl

theorem ofHexBE_replicate_zero (m : ℕ) : ofHexBE (List.replicate m '0') = 0 := by
  induction m with
  | zero => rfl
  | succ k ih =>
    rw [List.replicate_succ, ofHexBE_cons, ih]
    simp [hexCharVal]

theorem hexDigitsAux_ofDigits :
    ∀ fuel n, n < 16 ^ fuel → Nat.ofDigits 16 (hexDigitsAux fuel n) = n := by
  intro fuel
  induction fuel with
  | zero => intro n hn; interval_cases n; rfl
  | succ f ih =>
    intro n hn
    unfold hexDigitsAux
    split
    · simpa [Nat.ofDigits_nil] using (by omega : (0 : ℕ) = n) ▸ rfl
    · rw [Nat.ofDigits_cons, ih (n / 16) (by rw [pow_succ] at hn; omega)]
      omega

theorem hexDigitsAux_mem_lt :
    ∀ fuel n d, d ∈ hexDigitsAux fuel n → d < 16 := by
  intro fuel
  induction fuel with
  | zero => intro n d h; simp [hexDigitsAux] at h
  | succ f ih =>
    intro n d h
    unfold hexDigitsAux at h
    split at h
    · simp at h
    · rcases List.mem_cons.mp h with h | h
      · omega
      · exact ih _ _ h

theorem hexDigitsAux_length_le :
    ∀ fuel n k, n < 16 ^ k → (hexDigitsAux fuel n).length ≤ k := by
  intro fuel
  induction fuel with
  | zero => intro n k _; simp [hexDigitsAux]
  | succ f ih =>
    intro n k hn
    unfold hexDigitsAux
    split
    · simp
    · match k, hn with
      | 0, hn => omega
      | k' + 1, hn =>
        simp only [List.length_cons]
        have : n / 16 < 16 ^ k' := by rw [pow_succ] at hn; omega
        have := ih (n / 16) k' this
        omega

theorem nat_lt_16_pow_self (n : ℕ) : n < 16 ^ n :=
  Nat.lt_pow_self (by norm_num : (1 : ℕ) < 16) n

theorem ofHexBE_rev_map_digits :
    ∀ ds : List ℕ, (∀ d ∈ ds, d < 16) →
      ofHexBE ((ds.map hexDigitChar).reverse) = Nat.ofDigits 16 ds := by
  intro ds
  induction ds with
  | nil => intro _; rfl
  | cons d t ih =>
    intro h
    simp only [List.map_cons, List.reverse_cons]
    rw [ofHexBE_append, ih (fun x hx => h x (List.mem_cons_of_mem _ hx)),
      Nat.ofDigits_cons]
    have hd : hexCharVal (hexDigitChar d) = d :=
      hexDigitChar_val d (h d (List.mem_cons_self _ _))
    simp [ofHexBE_cons, ofHexBE, hd]
    ring

theorem ofHexBE_jsToHex (n : ℕ) : ofHexBE (jsToHex n) = n := by
  unfold jsToHex
  split
  · simp [ofHexBE_cons, ofHexBE, hexCharVal]
    omega
  · rw [ofHexBE_rev_map_digits _ (hexDigitsAux_mem_lt n n)]
    exact hexDigitsAux_ofDigits n n (nat_lt_16_pow_self n)

theorem jsToHex_mem_hex (n : ℕ) : ∀ c ∈ jsToHex n, isHexDigitJS c = true := by
  intro c hc
  unfold jsToHex at hc
  split at hc
  · rcases List.mem_singleton.mp hc with rfl; decide
  · rcases List.mem_reverse.mp hc with hc
    rcases List.mem_map.mp hc with ⟨d, hd, rfl⟩
    exact hexDigitChar_isHex d (hexDigitsAux_mem_lt n n d hd)

theorem jsToHex_length_le {n k : ℕ} (hk : 1 ≤ k) (hn : n < 16 ^ k) :
    (jsToHex n).length ≤ k := by
  unfold jsToHex
  split
  · simpa using hk
  · simpa using hexDigitsAux_length_le n n k hn

theorem ofHexBE_pair (a b : Char) : ofHexBE [a, b] = 16 * hexCharVal a + hexCharVal b := by
  show List.foldl _ _ _ = _
  simp only [List.foldl_cons, List.foldl_nil]
  omega

theorem jsParseIntHex_pair {a b : Char}
    (ha : isHexDigitJS a = true) (hb : isHexDigitJS b = true) :
    jsParseIntHex [a, b] = some ((16 * hexCharVal a + hexCharVal b : ℕ) : ℤ) := by
  unfold jsParseIntHex
  have hwa : isJsWs a = false := isHex_not_ws ha
  have hma : (a == '-') = false := isHex_ne_minus ha
  have hpa : (a == '+') = false := isHex_ne_plus ha
  have hbx : b ≠ 'x' := isHex_ne_x hb
  have hbX : b ≠ 'X' := isHex_ne_X hb
  simp only [List.dropWhile_cons, hwa, Bool.false_eq_true, if_false, hma, hpa,
    Bool.or_self, List.take_cons, List.take_nil]
  have h0x : ¬([a, b].take 2 = ['0', 'x'] ∨ [a, b].take 2 = ['0', 'X']) := by
    simp only [List.take_cons, List.take_nil, not_or]
    constructor <;> (intro heq; injection heq with h1 h2; injection h2 with h2 _)
    · exact hbx h2
    · exact hbX h2
  rw [if_neg h0x]
  simp only [List.takeWhile_cons, ha, hb, List.takeWhile_nil, List.isEmpty_cons,
    if_false, if_true, Bool.false_eq_true]
  rw [ofHexBE_pair]
  simp

theorem parseByte_pair {a b : Char}
    (ha : isHexDigitJS a = true) (hb : isHexDigitJS b = true) :
    parseByte [a, b] = 16 * hexCharVal a + hexCharVal b := by
  unfold parseByte
  rw [jsParseIntHex_pair ha hb]
  have h16a := hexCharVal_lt16 a
  have h16b := hexCharVal_lt16 b
  have hlt : ((16 * hexCharVal a + hexCharVal b : ℕ) : ℤ) < 256 := by
    push_cast; omega
  show ((((16 * hexCharVal a + hexCharVal b : ℕ) : ℤ)) % 256).toNat =
    16 * hexCharVal a + hexCharVal b
  rw [Int.emod_eq_of_lt (by positivity) hlt]
  omega

theorem parseByte_pair_lt {a b : Char}
    (ha : isHexDigitJS a = true) (hb : isHexDigitJS b = true) :
    parseByte [a, b] < 256 := by
  rw [parseByte_pair ha hb]
  have := hexCharVal_lt16 a
  have := hexCharVal_lt16 b
  omega

/-- Base-256 value of the byte list produced by pairing a big-endian string
of hex digits, processed most significant byte first. -/
theorem chunk2_spec (cs : List Char) (hhex : ∀ c ∈ cs, isHexDigitJS c = true)
    (heven : cs.length % 2 = 0) :
    ((chunk2 cs).map parseByte).length = cs.length / 2 ∧
    (∀ x ∈ (chunk2 cs).map parseByte, x < 256) ∧
    Nat.ofDigits 256 (((chunk2 cs).map parseByte).reverse) = ofHexBE cs :=
  match cs, hhex, heven with
  | [], _, _ => by simp [chunk2, ofHexBE]
  | [a], _, heven => by simp at heven
  | a :: b :: t, hhex, heven => by
    have ha : isHexDigitJS a = true := hhex a (by simp)
    have hb : isHexDigitJS b = true := hhex b (by simp)
    have ht : ∀ c ∈ t, isHexDigitJS c = true := fun c hc => hhex c (by simp [hc])
    have hte : t.length % 2 = 0 := by simp only [List.length_cons] at heven; omega
    obtain ⟨ih1, ih2, ih3⟩ := chunk2_spec t ht hte
    refine ⟨?_, ?_, ?_⟩
    · simp only [chunk2, List.map_cons, List.length_cons] at ih1 ⊢
      try omega
    · intro x hx
      simp only [chunk2, List.map_cons, List.mem_cons] at hx
      rcases hx with rfl | hx
      · exact parseByte_pair_lt ha hb
      · exact ih2 x hx
    · simp only [chunk2, List.map_cons, List.reverse_cons]
      rw [Nat.ofDigits_append, ih3, Nat.ofDigits_singleton,
        parseByte_pair ha hb]
      have hco : ofHexBE (a :: b :: t) =
          (16 * hexCharVal a + hexCharVal b) * 16 ^ t.length + ofHexBE t := by
        rw [show a :: b :: t = [a, b] ++ t from rfl, ofHexBE_append, ofHexBE_pair]
      rw [hco, List.length_reverse, ih1]
      have hpow : (256 : ℕ) ^ (t.length / 2) = 16 ^ t.length := by
        have ht2 : t.length = 2 * (t.length / 2) := by omega
        rw [ht2, pow_mul]
        norm_num
      rw [hpow]
      ring

theorem hexToBytesJS_of_hex {cs : List Char}
    (hhex : ∀ c ∈ cs, isHexDigitJS c = true) (heven : cs.length % 2 = 0) :
    hexToBytesJS cs = some ((chunk2 cs).map parseByte) := by
  unfold hexToBytesJS
  have h2 : cs.take 2 ≠ ['0', 'x'] := by
    intro hx
    have : 'x' ∈ cs.take 2 := by rw [hx]; simp
    exact isHex_ne_x (hhex 'x' (List.take_subset 2 cs this)) rfl
  rw [if_neg h2, if_pos heven]

/-- The scalar serialisation pipeline of the source
(`toString(16).padStart(64, "0")`, `hexToBytes`, `reverse`) is an exact
little-endian base-256 encoding on 32 bytes for scalars below `16 ^ 64`. -/
theorem scalarToBytesLE_spec {n : ℕ} (hn : n < 16 ^ 64) :
    (scalarToBytesLE n).length = 32 ∧
    (∀ x ∈ scalarToBytesLE n, x < 256) ∧
    Nat.ofDigits 256 (scalarToBytesLE n) = n := by
  have hjlen : (jsToHex n).length ≤ 64 := jsToHex_length_le (by omega) hn
  have hplen : (padStart 64 '0' (jsToHex n)).length = 64 := by
    simp [padStart]
    omega
  have hphex : ∀ c ∈ padStart 64 '0' (jsToHex n), isHexDigitJS c = true := by
    intro c hc
    rcases List.mem_append.mp hc with hc | hc
    · rcases List.eq_of_mem_replicate hc with rfl; decide
    · exact jsToHex_mem_hex n c hc
  have hval : ofHexBE (padStart 64 '0' (jsToHex n)) = n := by
    unfold padStart
    rw [ofHexBE_append, ofHexBE_replicate_zero, ofHexBE_jsToHex]
    ring
  have hbytes := hexToBytesJS_of_hex hphex (by omega)
  obtain ⟨hc1, hc2, hc3⟩ := chunk2_spec (padStart 64 '0' (jsToHex n)) hphex (by omega)
  unfold scalarToBytesLE
  rw [hbytes]
  refine ⟨?_, ?_, ?_⟩
  · simp only [Option.getD_some, List.length_reverse]
    omega
  · intro x hx
    exact hc2 x (by simpa using hx)
  · simp only [Option.getD_some]
    rw [hc3, hval]

theorem bytePair_spec (b : ℕ) (hb : b < 256) :
    (padStart 2 '0' (jsToHex b)).length = 2 ∧
    (∀ c ∈ padStart 2 '0' (jsToHex b), isHexDigitJS c = true) ∧
    ofHexBE (padStart 2 '0' (jsToHex b)) = b := by
  have hjlen : (jsToHex b).length ≤ 2 :=
    jsToHex_length_le (by omega) (by norm_num; omega)
  refine ⟨?_, ?_, ?_⟩
  · simp [padStart]
    omega
  · intro c hc
    rcases List.mem_append.mp hc with hc | hc
    · rcases List.eq_of_mem_replicate hc with rfl; decide
    · exact jsToHex_mem_hex b c hc
  · unfold padStart
    rw [ofHexBE_append, ofHexBE_replicate_zero, ofHexBE_jsToHex]
    ring

theorem parseByte_bytePair (b : ℕ) (hb : b < 256) :
    parseByte (padStart 2 '0' (jsToHex b)) = b := by
  obtain ⟨h1, h2, h3⟩ := bytePair_spec b hb
  obtain ⟨a, c, hac⟩ := List.length_eq_two.mp h1
  rw [hac] at h2 h3 ⊢
  rw [parseByte_pair (h2 a (by simp)) (h2 c (by simp)), ← ofHexBE_pair, h3]

theorem bytesToHex_spec (bs : List ℕ) (hbs : ∀ b ∈ bs, b < 256) :
    (bytesToHex bs).length = 2 * bs.length ∧
    (∀ c ∈ bytesToHex bs, isHexDigitJS c = true) ∧
    ofHexBE (bytesToHex bs) = Nat.ofDigits 256 bs.reverse := by
  induction bs with
  | nil => exact ⟨rfl, by simp [bytesToHex], rfl⟩
  | cons b t ih =>
    have hb : b < 256 := hbs b (by simp)
    have ht : ∀ x ∈ t, x < 256 := fun x hx => hbs x (by simp [hx])
    obtain ⟨ih1, ih2, ih3⟩ := ih ht
    have hpair := bytePair_spec b hb
    obtain ⟨hp1, hp2, hp3⟩ := hpair
    have hcons : bytesToHex (b :: t) = padStart 2 '0' (jsToHex b) ++ bytesToHex t := by
      simp [bytesToHex]
    refine ⟨?_, ?_, ?_⟩
    · rw [hcons, List.length_append, hp1, ih1]
      simp
      ring
    · intro c hc
      rw [hcons] at hc
      rcases List.mem_append.mp hc with hc | hc
      · exact hp2 c hc
      · exact ih2 c hc
    · rw [hcons, ofHexBE_append, hp3, ih3, List.reverse_cons, Nat.ofDigits_append,
        Nat.ofDigits_singleton, ih1, List.length_reverse]
      have : (16 : ℕ) ^ (2 * t.length) = 256 ^ t.length := by
        rw [pow_mul]; norm_num
      rw [this]
      ring

/-- The reverse-hex-BigInt dance of `toScalar` computes the little-endian
value of a byte buffer: `BigInt("0x" + bytesToHex(reverse bs))` is
`ofDigits 256 bs`. -/
theorem ofHexBE_bytesToHex_reverse (bs : List ℕ) (hbs : ∀ b ∈ bs, b < 256) :
    ofHexBE (bytesToHex bs.reverse) = Nat.ofDigits 256 bs := by
  have h : ∀ b ∈ bs.reverse, b < 256 := fun b hb => hbs b (List.mem_reverse.mp hb)
  rw [(bytesToHex_spec bs.reverse h).2.2, List.reverse_reverse]

/-- Value-level characterisation of `toScalar`: little-endian interpretation
(of the first 32 bytes when given 64) reduced modulo the group order. -/
theorem toScalar_spec (bs : List ℕ) (hbs : ∀ b ∈ bs, b < 256) :
    toScalar bs =
      Nat.ofDigits 256 (if bs.length = 64 then bs.take 32 else bs) % CURVE_n := by
  unfold toScalar
  split
  · show ofHexBE (bytesToHex (bs.take 32).reverse) % CURVE_n = _
    rw [ofHexBE_bytesToHex_reverse (bs.take 32)
      (fun b hb => hbs b (List.take_subset 32 bs hb))]
  · show ofHexBE (bytesToHex bs.reverse) % CURVE_n = _
    rw [ofHexBE_bytesToHex_reverse bs hbs]

theorem toScalar_lt (bs : List ℕ) : toScalar bs < CURVE_n :=
  Nat.mod_lt _ CURVE_n_pos

/-- Reduction modulo the group order does not change the resulting point
when the base point is killed by the order. -/
theorem mod_order_nsmul {g : Pt} (hord : CURVE_n • g = 0) (n : ℕ) :
    (n % CURVE_n) • g = n • g := by
  conv_rhs => rw [← Nat.div_add_mod n CURVE_n]
  rw [add_nsmul, mul_nsmul, hord]
  simp

/-! ### Memo codec lemmas -/

theorem hexToBytesJS_total {cs : List Char} (h64 : cs.length = 64) :
    ∃ bs, hexToBytesJS cs = some bs := by
  unfold hexToBytesJS
  split
  · rw [if_pos (by simp [h64])]
    exact ⟨_, rfl⟩
  · rw [if_pos (by omega)]
    exact ⟨_, rfl⟩

theorem chunk2_length : ∀ cs : List Char, cs.length % 2 = 0 →
    (chunk2 cs).length = cs.length / 2
  | [], _ => rfl
  | [a], h => by simp at h
  | a :: b :: t, h => by
    have ht : t.length % 2 = 0 := by simp only [List.length_cons] at h; omega
    simp only [chunk2, List.length_cons, chunk2_length t ht]
    omega

theorem hexToBytesJS_length {cs : List Char} {bs : List ℕ} (h64 : cs.length = 64)
    (h : hexToBytesJS cs = some bs) :
    bs.length = if cs.take 2 = ['0', 'x'] then 31 else 32 := by
  unfold hexToBytesJS at h
  split at h
  · rw [if_pos (by assumption)]
    rw [if_pos (by simp [h64])] at h
    obtain rfl := Option.some_injective _ h.symm
    simp [chunk2_length (cs.drop 2) (by simp [h64]), h64]
  · rw [if_neg (by assumption)]
    rw [if_pos (by omega)] at h
    obtain rfl := Option.some_injective _ h.symm
    simp [chunk2_length cs (by omega), h64]

/-! ### Claim theorems -/

/-- C1: for every meta keypair (with `metaPk` computed by `derivePublicKey`
from `metaSk`) and every shared secret (in particular the one obtained from
any ephemeral keypair), the stealth public key produced by the sender path
`deriveStealthPubkey metaPk sharedSecret` equals the base-point multiple of
the scalar encoded (little-endian) in the bytes returned by the recipient
path `recoverStealthSecretKey metaSk sharedSecret`: stealthSk·G = stealthPk. -/
theorem stealth_roundtrip (E : CurveEngine Pt) (H256 : List ℕ → List ℕ)
    (hord : CURVE_n • E.G = 0)
    (hinv : ∀ P : Pt, E.decPt (E.encPt P) = P)
    (metaSk metaPk sharedSecret : List ℕ)
    (hpk : metaPk = derivePublicKey E metaSk) :
    deriveStealthPubkey E H256 metaPk sharedSecret =
      E.encPt
        (Nat.ofDigits 256 (recoverStealthSecretKey H256 metaSk sharedSecret) • E.G) := by
  subst hpk
  have hlt : (toScalar metaSk + toScalar (H256 (sharedSecret ++ stealthDomainBytes))) %
      CURVE_n < 16 ^ 64 :=
    lt_trans (Nat.mod_lt _ CURVE_n_pos) CURVE_n_lt_pow
  have hS : Nat.ofDigits 256 (recoverStealthSecretKey H256 metaSk sharedSecret) =
      (toScalar metaSk + toScalar (H256 (sharedSecret ++ stealthDomainBytes))) %
        CURVE_n :=
    (scalarToBytesLE_spec hlt).2.2
  show E.encPt (E.decPt (E.encPt (toScalar metaSk • E.G)) +
      toScalar (H256 (sharedSecret ++ stealthDomainBytes)) • E.G) = _
  rw [hS, hinv, mod_order_nsmul hord, add_nsmul]

/-- Witness for C1: hypotheses discharged at the one-point engine, an
all-zero meta secret key and a concrete shared secret. -/
theorem stealth_roundtrip_witness :
    (CURVE_n • unitEngine.G = 0) ∧
    (∀ P : PUnit, unitEngine.decPt (unitEngine.encPt P) = P) ∧
    (List.replicate 32 0 = derivePublicKey unitEngine (List.replicate 32 0)) ∧
    deriveStealthPubkey unitEngine (fun _ => List.replicate 32 1)
        (List.replicate 32 0) (List.replicate 32 2) =
      unitEngine.encPt
        (Nat.ofDigits 256 (recoverStealthSecretKey (fun _ => List.replicate 32 1)
          (List.replicate 32 0) (List.replicate 32 2)) • unitEngine.G) :=
  ⟨Subsingleton.elim _ _, fun _ => Subsingleton.elim _ _, rfl,
    stealth_roundtrip unitEngine (fun _ => List.replicate 32 1)
      (Subsingleton.elim _ _) (fun _ => Subsingleton.elim _ _)
      (List.replicate 32 0) (List.replicate 32 0) (List.replicate 32 2) rfl⟩

/-- C3: when both public keys are derived with `derivePublicKey`, the
sender-side `computeSharedSecret(ephemeralSk, metaPk)` returns the same
32-byte digest as the recipient-side `computeSharedSecretAsRecipient(metaSk,
ephemeralPk)` (32 bytes because the digest always returns 32 bytes). -/
theorem shared_secret_agree (E : CurveEngine Pt) (H256 : List ℕ → List ℕ)
    (hinv : ∀ P : Pt, E.decPt (E.encPt P) = P)
    (hH : ∀ x, (H256 x).length = 32)
    (metaSk ephemeralSk : List ℕ) :
    computeSharedSecret E H256 ephemeralSk (derivePublicKey E metaSk) =
      computeSharedSecretAsRecipient E H256 metaSk (derivePublicKey E ephemeralSk) ∧
    (computeSharedSecret E H256 ephemeralSk (derivePublicKey E metaSk)).length = 32 := by
  constructor
  · show H256 (E.encPt (toScalar ephemeralSk •
        E.decPt (E.encPt (toScalar metaSk • E.G)))) =
      H256 (E.encPt (toScalar metaSk •
        E.decPt (E.encPt (toScalar ephemeralSk • E.G))))
    rw [hinv, hinv, ← mul_nsmul, ← mul_nsmul,
      Nat.mul_comm (toScalar metaSk) (toScalar ephemeralSk)]
  · exact hH _

/-- Witness for C3: hypotheses discharged at the one-point engine, a digest
returning 32 zero bytes and concrete secret keys. -/
theorem shared_secret_agree_witness :
    (∀ P : PUnit, unitEngine.decPt (unitEngine.encPt P) = P) ∧
    (∀ x, ((fun _ => List.replicate 32 0 : List ℕ → List ℕ) x).length = 32) ∧
    (computeSharedSecret unitEngine (fun _ => List.replicate 32 0)
        (List.replicate 32 3) (derivePublicKey unitEngine (List.replicate 32 4)) =
      computeSharedSecretAsRecipient unitEngine (fun _ => List.replicate 32 0)
        (List.replicate 32 4) (derivePublicKey unitEngine (List.replicate 32 3)) ∧
    (computeSharedSecret unitEngine (fun _ => List.replicate 32 0)
        (List.replicate 32 3) (derivePublicKey unitEngine (List.replicate 32 4))).length = 32) :=
  ⟨fun _ => Subsingleton.elim _ _, fun _ => rfl,
    shared_secret_agree unitEngine (fun _ => List.replicate 32 0)
      (fun _ => Subsingleton.elim _ _) (fun _ => rfl)
      (List.replicate 32 4) (List.replicate 32 3)⟩

/-- C7: `toScalar` interprets a 32-byte buffer (or the first 32 bytes of a
64-byte buffer) as a little-endian integer reduced modulo the group order;
the result is always below the order and no input is rejected (the function
is total). -/
theorem toScalar_reduction (bytes : List ℕ) (hb : ∀ b ∈ bytes, b < 256) :
    toScalar bytes < CURVE_n ∧
    (bytes.length = 32 → toScalar bytes = Nat.ofDigits 256 bytes % CURVE_n) ∧
    (bytes.length = 64 → toScalar bytes = Nat.ofDigits 256 (bytes.take 32) % CURVE_n) := by
  refine ⟨toScalar_lt bytes, ?_, ?_⟩
  · intro h32
    rw [toScalar_spec bytes hb, if_neg (by omega)]
  · intro h64
    rw [toScalar_spec bytes hb, if_pos h64]

/-- Witness for C7 at a concrete 32-byte buffer. -/
theorem toScalar_reduction_witness :
    (∀ b ∈ List.replicate 32 7, b < 256) ∧
    (toScalar (List.replicate 32 7) < CURVE_n ∧
    ((List.replicate 32 7 : List ℕ).length = 32 →
      toScalar (List.replicate 32 7) =
        Nat.ofDigits 256 (List.replicate 32 7) % CURVE_n) ∧
    ((List.replicate 32 7 : List ℕ).length = 64 →
      toScalar (List.replicate 32 7) =
        Nat.ofDigits 256 ((List.replicate 32 7 : List ℕ).take 32) % CURVE_n)) :=
  ⟨by decide, toScalar_reduction (List.replicate 32 7) (by decide)⟩

/-- C2: for every scalar input, message and drawn nonce, `signWithScalar`
produces a 64-byte signature `R (32 bytes) ‖ S (32 bytes little-endian)`
with `S = (r + k·scalar) mod L` for `k = hash-to-scalar(R ‖ A ‖ message)`
and `A = scalar·G`, and the signature satisfies the standard verification
equation `S·G = R + k·A`. -/
theorem signWithScalar_valid (E : CurveEngine Pt) (H512 : List ℕ → List ℕ)
    (hord : CURVE_n • E.G = 0)
    (hlen : ∀ P : Pt, (E.encPt P).length = 32)
    (hH : ∀ x, ∀ b ∈ H512 x, b < 256)
    (message scalarBytes rBytes : List ℕ) :
    (signWithScalar E H512 message scalarBytes rBytes).length = 64 ∧
    (signWithScalar E H512 message scalarBytes rBytes).take 32 =
      E.encPt (toScalar rBytes • E.G) ∧
    Nat.ofDigits 256 ((signWithScalar E H512 message scalarBytes rBytes).drop 32) =
      (toScalar rBytes +
        hashToScalarLE (H512 (E.encPt (toScalar rBytes • E.G) ++
          E.encPt (toScalar scalarBytes • E.G) ++ message)) * toScalar scalarBytes) %
        CURVE_n ∧
    Nat.ofDigits 256 ((signWithScalar E H512 message scalarBytes rBytes).drop 32) • E.G =
      toScalar rBytes • E.G +
        hashToScalarLE (H512 (E.encPt (toScalar rBytes • E.G) ++
          E.encPt (toScalar scalarBytes • E.G) ++ message)) •
          (toScalar scalarBytes • E.G) := by
  have hk : ofHexBE (bytesToHex (H512 (E.encPt (toScalar rBytes • E.G) ++
        E.encPt (toScalar scalarBytes • E.G) ++ message)).reverse) % CURVE_n =
      hashToScalarLE (H512 (E.encPt (toScalar rBytes • E.G) ++
        E.encPt (toScalar scalarBytes • E.G) ++ message)) := by
    rw [ofHexBE_bytesToHex_reverse _ (hH _)]
    rfl
  have hsig : signWithScalar E H512 message scalarBytes rBytes =
      E.encPt (toScalar rBytes • E.G) ++
        scalarToBytesLE ((toScalar rBytes +
          hashToScalarLE (H512 (E.encPt (toScalar rBytes • E.G) ++
            E.encPt (toScalar scalarBytes • E.G) ++ message)) *
          toScalar scalarBytes) % CURVE_n) := by
    show E.encPt (toScalar rBytes • E.G) ++
        scalarToBytesLE ((toScalar rBytes +
          (ofHexBE (bytesToHex (H512 (E.encPt (toScalar rBytes • E.G) ++
            E.encPt (toScalar scalarBytes • E.G) ++ message)).reverse) % CURVE_n) *
          toScalar scalarBytes) % CURVE_n) = _
    rw [hk]
  have hSlt : (toScalar rBytes +
      hashToScalarLE (H512 (E.encPt (toScalar rBytes • E.G) ++
        E.encPt (toScalar scalarBytes • E.G) ++ message)) * toScalar scalarBytes) %
      CURVE_n < 16 ^ 64 :=
    lt_trans (Nat.mod_lt _ CURVE_n_pos) CURVE_n_lt_pow
  obtain ⟨hS1, _, hS3⟩ := scalarToBytesLE_spec hSlt
  have hR32 : (E.encPt (toScalar rBytes • E.G)).length = 32 := hlen _
  have htake : (signWithScalar E H512 message scalarBytes rBytes).take 32 =
      E.encPt (toScalar rBytes • E.G) := by
    rw [hsig, ← hR32, List.take_left]
  have hdrop : (signWithScalar E H512 message scalarBytes rBytes).drop 32 =
      scalarToBytesLE ((toScalar rBytes +
        hashToScalarLE (H512 (E.encPt (toScalar rBytes • E.G) ++
          E.encPt (toScalar scalarBytes • E.G) ++ message)) *
        toScalar scalarBytes) % CURVE_n) := by
    rw [hsig, ← hR32, List.drop_left]
  refine ⟨?_, htake, ?_, ?_⟩
  · rw [hsig, List.length_append, hR32, hS1]
  · rw [hdrop, hS3]
  · rw [hdrop, hS3, mod_order_nsmul hord, add_nsmul,
      Nat.mul_comm
        (hashToScalarLE (H512 (E.encPt (toScalar rBytes • E.G) ++
          E.encPt (toScalar scalarBytes • E.G) ++ message)))
        (toScalar scalarBytes),
      mul_nsmul]

set_option maxRecDepth 4000 in
/-- Witness for C2: hypotheses discharged at the one-point engine, a SHA-512
stub returning 64 zero bytes and concrete message, scalar and nonce. -/
theorem signWithScalar_valid_witness :
    (CURVE_n • unitEngine.G = 0) ∧
    (∀ P : PUnit, (unitEngine.encPt P).length = 32) ∧
    (∀ x, ∀ b ∈ (fun _ => List.replicate 64 0 : List ℕ → List ℕ) x, b < 256) ∧
    ((signWithScalar unitEngine (fun _ => List.replicate 64 0)
        [1, 2, 3] (List.replicate 32 9) (List.replicate 32 8)).length = 64 ∧
    (signWithScalar unitEngine (fun _ => List.replicate 64 0)
        [1, 2, 3] (List.replicate 32 9) (List.replicate 32 8)).take 32 =
      unitEngine.encPt (toScalar (List.replicate 32 8) • unitEngine.G) ∧
    Nat.ofDigits 256 ((signWithScalar unitEngine (fun _ => List.replicate 64 0)
        [1, 2, 3] (List.replicate 32 9) (List.replicate 32 8)).drop 32) =
      (toScalar (List.replicate 32 8) +
        hashToScalarLE ((fun _ => List.replicate 64 0 : List ℕ → List ℕ)
          (unitEngine.encPt (toScalar (List.replicate 32 8) • unitEngine.G) ++
            unitEngine.encPt (toScalar (List.replicate 32 9) • unitEngine.G) ++
            [1, 2, 3])) * toScalar (List.replicate 32 9)) % CURVE_n ∧
    Nat.ofDigits 256 ((signWithScalar unitEngine (fun _ => List.replicate 64 0)
        [1, 2, 3] (List.replicate 32 9) (List.replicate 32 8)).drop 32) • unitEngine.G =
      toScalar (List.replicate 32 8) • unitEngine.G +
        hashToScalarLE ((fun _ => List.replicate 64 0 : List ℕ → List ℕ)
          (unitEngine.encPt (toScalar (List.replicate 32 8) • unitEngine.G) ++
            unitEngine.encPt (toScalar (List.replicate 32 9) • unitEngine.G) ++
            [1, 2, 3])) • (toScalar (List.replicate 32 9) • unitEngine.G)) :=
  ⟨Subsingleton.elim _ _, fun _ => rfl,
    fun _ b hb => by rw [List.eq_of_mem_replicate hb]; decide,
    signWithScalar_valid unitEngine (fun _ => List.replicate 64 0)
      (Subsingleton.elim _ _) (fun _ => rfl)
      (fun _ b hb => by rw [List.eq_of_mem_replicate hb]; decide)
      [1, 2, 3] (List.replicate 32 9) (List.replicate 32 8)⟩

theorem chunk2_bytesToHex (bs : List ℕ) (hb : ∀ b ∈ bs, b < 256) :
    (chunk2 (bytesToHex bs)).map parseByte = bs := by
  induction bs with
  | nil => rfl
  | cons b t ih =>
    have hbb : b < 256 := hb b (by simp)
    have hbt : ∀ x ∈ t, x < 256 := fun x hx => hb x (List.mem_cons_of_mem _ hx)
    have hcons : bytesToHex (b :: t) = padStart 2 '0' (jsToHex b) ++ bytesToHex t := by
      simp [bytesToHex]
    obtain ⟨h1, _, _⟩ := bytePair_spec b hbb
    obtain ⟨a, c, hac⟩ := List.length_eq_two.mp h1
    rw [hcons, hac]
    show (chunk2 (a :: c :: bytesToHex t)).map parseByte = b :: t
    simp only [chunk2, List.map_cons]
    rw [ih hbt, ← hac, parseByte_bytePair b hbb]

/-- C6: decoding inverts encoding — `parseStealthMemo (generateStealthMemo
pk) = pk` for every 32-byte public key. -/
theorem memo_roundtrip (pk : List ℕ) (hlen : pk.length = 32)
    (hb : ∀ b ∈ pk, b < 256) :
    parseStealthMemo (generateStealthMemo pk) = some pk := by
  obtain ⟨hl, hh, _⟩ := bytesToHex_spec pk hb
  unfold generateStealthMemo parseStealthMemo
  rw [List.take_left, if_pos rfl, List.drop_left, hl, hlen,
    if_pos rfl, hexToBytesJS_of_hex hh (by omega), chunk2_bytesToHex pk hb]

/-- Witness for C6 at a concrete 32-byte key. -/
theorem memo_roundtrip_witness :
    (List.replicate 32 171 : List ℕ).length = 32 ∧
    (∀ b ∈ List.replicate 32 171, b < 256) ∧
    parseStealthMemo (generateStealthMemo (List.replicate 32 171)) =
      some (List.replicate 32 171) :=
  ⟨rfl, by decide, memo_roundtrip (List.replicate 32 171) rfl (by decide)⟩

/-- C5 (amended): `parseStealthMemo` returns `none` exactly when the memo
does not start with the protocol tag or the remainder after the tag is not
exactly 64 characters.  A 64-character payload is never rejected for
containing non-hex characters: `parseInt` parses leniently and `Uint8Array`
coerces `NaN` to `0`, so the hex-decode-failure branch of the claim is
unreachable. -/
theorem parseStealthMemo_none_iff (memo : List Char) :
    parseStealthMemo memo = none ↔
      (memo.take MEMO_TAG.length ≠ MEMO_TAG ∨
        (memo.drop MEMO_TAG.length).length ≠ 64) := by
  unfold parseStealthMemo
  split
  case isTrue htag =>
    split
    case isTrue h64 =>
      obtain ⟨bs, hbs⟩ := hexToBytesJS_total h64
      rw [hbs]
      simp [htag, h64]
    case isFalse h64 =>
      simp only [List.length_drop] at h64
      simp [htag, h64]
  case isFalse htag => simp [htag]

/-- Counterexample for C5 as stated: a memo whose 64-character payload
consists entirely of the non-hex character `z` is not rejected; it decodes
to 32 zero bytes instead of returning `none`. -/
theorem parseStealthMemo_nonhex_counterexample :
    (∀ c ∈ List.replicate 64 'z', isHexDigitJS c = false) ∧
    parseStealthMemo (MEMO_TAG ++ List.replicate 64 'z') =
      some (List.replicate 32 0) := by
  constructor
  · decide
  · decide

/-- C9 (amended): a successful `parseStealthMemo` returns 32 bytes — unless
the 64-character payload begins with the two characters `0x`, which
`hexToBytes` silently strips, leaving only 31 bytes. -/
theorem parseStealthMemo_some_length (memo : List Char) (bs : List ℕ)
    (h : parseStealthMemo memo = some bs) :
    bs.length =
      if (memo.drop MEMO_TAG.length).take 2 = ['0', 'x'] then 31 else 32 := by
  unfold parseStealthMemo at h
  split at h
  case isTrue htag =>
    split at h
    case isTrue h64 => exact hexToBytesJS_length h64 h
    case isFalse h64 => exact absurd h (by simp)
  case isFalse htag => exact absurd h (by simp)

/-- Witness for C9 (amended) at a memo with an all-zero payload. -/
theorem parseStealthMemo_some_length_witness :
    parseStealthMemo (MEMO_TAG ++ List.replicate 64 '0') =
      some (List.replicate 32 0) ∧
    (List.replicate 32 0 : List ℕ).length =
      if ((MEMO_TAG ++ List.replicate 64 '0').drop MEMO_TAG.length).take 2 =
          ['0', 'x'] then 31 else 32 :=
  ⟨by decide, parseStealthMemo_some_length _ _ (by decide)⟩

/-- Counterexample for C9 as stated: a payload beginning with `0x` yields a
31-byte result, so a non-`none` result is not always 32 bytes. -/
theorem parseStealthMemo_0x_counterexample :
    parseStealthMemo (MEMO_TAG ++ ['0', 'x'] ++ List.replicate 62 'a') =
      some (List.replicate 31 170) ∧
    (List.replicate 31 170 : List ℕ).length ≠ 32 := by
  constructor
  · decide
  · decide

/-- C4: whenever trial decryption matches an account, the reported amount is
the post-balance of the matched account minus its pre-balance when that difference is
positive and `0` otherwise, and it is never negative. -/
theorem attemptDecryption_amount (E : CurveEngine Pt) (H256 : List ℕ → List ℕ)
    (tx : ParsedTx) (metaSk metaPk : List ℕ) (r : Detection)
    (h : attemptDecryption E H256 tx metaSk metaPk = some r) :
    0 ≤ r.amount ∧
    ∃ epk idx,
      parseStealthMemo ((extractMemo tx).getD []) = some epk ∧
      r.ephemeralPk = epk ∧
      tx.accountKeys.findIdx? (fun a => bytesToHex a ==
        bytesToHex (deriveStealthPubkey E H256 metaPk
          (computeSharedSecretAsRecipient E H256 metaSk epk))) = some idx ∧
      r.amount =
        if 0 < ((txPostBalances tx).getD idx 0 : ℤ) - ((txPreBalances tx).getD idx 0 : ℤ)
        then ((txPostBalances tx).getD idx 0 : ℤ) - ((txPreBalances tx).getD idx 0 : ℤ)
        else 0 := by
  unfold attemptDecryption at h
  cases hp : parseStealthMemo ((extractMemo tx).getD []) with
  | none => rw [hp] at h; exact absurd h (by simp)
  | some epk =>
    rw [hp] at h
    dsimp only at h
    cases hf : tx.accountKeys.findIdx? (fun a => bytesToHex a ==
        bytesToHex (deriveStealthPubkey E H256 metaPk
          (computeSharedSecretAsRecipient E H256 metaSk epk))) with
    | none => rw [hf] at h; exact absurd h (by simp)
    | some idx =>
      rw [hf] at h
      dsimp only at h
      rw [Option.some.injEq] at h
      subst h
      refine ⟨?_, epk, idx, rfl, rfl, hf, rfl⟩
      dsimp only
      split <;> omega

/-- Witness for C4 at the one-point engine and `witnessTx`, whose single
account key is the derived stealth address and whose balance rose from 2 to
5 lamports. -/
theorem attemptDecryption_amount_witness :
    (attemptDecryption unitEngine (fun _ => []) witnessTx [] [] =
      some witnessDetection) ∧
    (0 ≤ witnessDetection.amount ∧
    ∃ epk idx,
      parseStealthMemo ((extractMemo witnessTx).getD []) = some epk ∧
      witnessDetection.ephemeralPk = epk ∧
      witnessTx.accountKeys.findIdx? (fun a => bytesToHex a ==
        bytesToHex (deriveStealthPubkey unitEngine (fun _ => []) []
          (computeSharedSecretAsRecipient unitEngine (fun _ => []) [] epk))) =
        some idx ∧
      witnessDetection.amount =
        if 0 < ((txPostBalances witnessTx).getD idx 0 : ℤ) -
            ((txPreBalances witnessTx).getD idx 0 : ℤ)
        then ((txPostBalances witnessTx).getD idx 0 : ℤ) -
            ((txPreBalances witnessTx).getD idx 0 : ℤ)
        else 0) :=
  ⟨by decide,
    attemptDecryption_amount unitEngine (fun _ => []) witnessTx [] []
      witnessDetection (by decide)⟩

/-- C8: a failed fetch of a single candidate transaction (`fetchTx` returns
`none`) is non-fatal — that candidate is skipped and the scan of the
remaining signatures is unchanged, still producing a result list — while a
failure of the initial signature-list fetch (`Except.error`) is fatal and is
surfaced to the caller unchanged. -/
theorem scan_error_handling (E : CurveEngine Pt) (H256 : List ℕ → List ℕ)
    (fetchTx : List Char → Option ParsedTx) (metaSk metaPk : List ℕ) :
    (∀ (ε : Type) (e : ε),
      scanForStealthTransfers E H256 (Except.error e) fetchTx metaSk metaPk =
        Except.error e) ∧
    (∀ (ε : Type) (sigs : List (List Char)), ∃ results,
      scanForStealthTransfers E H256 (Except.ok sigs : Except ε _) fetchTx metaSk metaPk =
        Except.ok results) ∧
    (∀ (before after : List (List Char)) (s : List Char), fetchTx s = none →
      scanList E H256 fetchTx metaSk metaPk (before ++ s :: after) =
        scanList E H256 fetchTx metaSk metaPk (before ++ after)) := by
  refine ⟨fun ε e => rfl, fun ε sigs => ⟨_, rfl⟩, ?_⟩
  intro before after s hs
  induction before with
  | nil =>
    simp only [List.nil_append, scanList, hs]
  | cons x t ih =>
    simp only [List.cons_append, scanList, List.append_eq]
    rw [ih]

/-- Witness for C8: the inner hypothesis discharged at the always-failing
fetch oracle and a singleton signature list. -/
theorem scan_error_handling_witness :
    ((fun _ => (none : Option ParsedTx)) ([] : List Char) = none) ∧
    scanList unitEngine (fun _ => []) (fun _ => none) [] []
        ([] ++ ([] : List Char) :: []) =
      scanList unitEngine (fun _ => []) (fun _ => none) [] [] ([] ++ []) :=
  ⟨rfl,
    (scan_error_handling unitEngine (fun _ => []) (fun _ => none) [] []).2.2
      [] [] [] rfl⟩

/-- C10: `prepareWithdraw` copies all five fields of the input
`StealthTransaction` unchanged (the parent projection of the result is the
input itself, and the result type adds exactly the one field
`stealthSecretKey`), and the added field is a function of `metaSk`, `metaPk`
and the `ephemeralPk` field of the input only: two inputs sharing `ephemeralPk`
receive the same `stealthSecretKey`. -/
theorem prepareWithdraw_frame (E : CurveEngine Pt) (H256 : List ℕ → List ℕ)
    (stealthTx : StealthTransaction) (metaSk metaPk : List ℕ) :
    (prepareWithdraw E H256 stealthTx metaSk metaPk).toStealthTransaction = stealthTx ∧
    (prepareWithdraw E H256 stealthTx metaSk metaPk).signature = stealthTx.signature ∧
    (prepareWithdraw E H256 stealthTx metaSk metaPk).blockTime = stealthTx.blockTime ∧
    (prepareWithdraw E H256 stealthTx metaSk metaPk).stealthAddress =
      stealthTx.stealthAddress ∧
    (prepareWithdraw E H256 stealthTx metaSk metaPk).amount = stealthTx.amount ∧
    (prepareWithdraw E H256 stealthTx metaSk metaPk).ephemeralPk =
      stealthTx.ephemeralPk ∧
    (∀ other : StealthTransaction, other.ephemeralPk = stealthTx.ephemeralPk →
      (prepareWithdraw E H256 other metaSk metaPk).stealthSecretKey =
        (prepareWithdraw E H256 stealthTx metaSk metaPk).stealthSecretKey) := by
  refine ⟨rfl, rfl, rfl, rfl, rfl, rfl, ?_⟩
  intro other hother
  simp only [prepareWithdraw, hother]

/-- Witness for C10: two transactions sharing an ephemeral key but differing
in every other field receive the same recovered stealth secret key. -/
theorem prepareWithdraw_frame_witness :
    ((⟨['a'], some 5, [1], 7, List.replicate 32 6⟩ :
        StealthTransaction).ephemeralPk =
      (⟨[], none, [], 0, List.replicate 32 6⟩ :
        StealthTransaction).ephemeralPk) ∧
    (prepareWithdraw unitEngine (fun _ => [])
        ⟨['a'], some 5, [1], 7, List.replicate 32 6⟩ [] []).stealthSecretKey =
      (prepareWithdraw unitEngine (fun _ => [])
        ⟨[], none, [], 0, List.replicate 32 6⟩ [] []).stealthSecretKey :=
  ⟨rfl,
    (prepareWithdraw_frame unitEngine (fun _ => [])
      ⟨[], none, [], 0, List.replicate 32 6⟩ [] []).2.2.2.2.2.2
      ⟨['a'], some 5, [1], 7, List.replicate 32 6⟩ rfl⟩

end Adelos
